import Mathlib

/-!
Shallow embedding of the parser-combinator library (src/src/parser.ts,
src/src/constructors.ts, src/src/combinators.ts).

JavaScript strings are sequences of UTF-16 code units; we model them as
lists of natural numbers (each < 2^16 for well-formed strings).  Parser
outputs are untyped at runtime in JavaScript, so we model them with a
single dynamic value type `JSValue` that contains `undefined` (the output
of the `nothing` parser), strings, and arrays.  Failure values are the
`{input, message}` records of parser.ts, and parsers are functions from
input to `Either InvalidInputError (Success Output)`, modelled with
`Except`.
-/

namespace Parsing

/-- A JavaScript string: its sequence of UTF-16 code units. -/
abbrev JSString := List Nat

/-- UTF-16 encoding of one Unicode scalar value (one or two code units). -/
def utf16Encode (c : Char) : List Nat :=
  if c.toNat < 0x10000 then [c.toNat]
  else [0xD800 + (c.toNat - 0x10000) / 0x400, 0xDC00 + (c.toNat - 0x10000) % 0x400]

/-- The `JSString` denoted by a Lean string literal (UTF-16 encoding). -/
def jsOfString (s : String) : JSString :=
  (s.data.map utf16Encode).flatten

/-- Runtime values flowing through parsers: JavaScript outputs are untyped,
so `undefined` (the output of `nothing`), strings and arrays all inhabit a
single dynamic type. -/
inductive JSValue : Type where
  | undef : JSValue
  | str : JSString → JSValue
  | arr : List JSValue → JSValue

/-- The runtime test `output === undefined` used by `zeroOrMore`. -/
def isUndef : JSValue → Bool
  | .undef => true
  | _ => false

/-- The failure record of parser.ts: the input the failing parser was given
and a diagnostic message. -/
structure InvalidInputError : Type where
  input : JSString
  message : JSString

/-- The success record of parser.ts. -/
structure Success (α : Type) : Type where
  remainingInput : JSString
  output : α

/-- A parser: a function from input to either a failure or a success, as in
parser.ts (outputs are dynamic `JSValue`s, see the header comment). -/
abbrev Parser := JSString → Except InvalidInputError (Success JSValue)

/-- Failure results of the top-level `parse`: either the parser's own
failure record, or the excess-content record, which additionally carries
the partial output and remaining input as diagnostics (parser.ts builds
a `{input, output, remainingInput, message}` object in that case). -/
inductive ParseFailure : Type where
  | fromParser : InvalidInputError → ParseFailure
  | excess : JSString → JSValue → JSString → JSString → ParseFailure

/-- Top-level `parse` of parser.ts: run the parser, then require
`remainingInput` to be empty, unwrapping the output. -/
def parse (parser : Parser) (input : JSString) : Except ParseFailure JSValue :=
  match parser input with
  | .error e => .error (.fromParser e)
  | .ok s =>
    if s.remainingInput.length ≠ 0 then
      .error (.excess input s.output s.remainingInput
        (jsOfString "excess content followed valid input"))
    else
      .ok s.output

/-- Is the code unit a UTF-16 high (leading) surrogate? -/
def isHighSurrogate (c : Nat) : Bool :=
  0xD800 ≤ c && c ≤ 0xDBFF

/-- Is the code unit a UTF-16 low (trailing) surrogate? -/
def isLowSurrogate (c : Nat) : Bool :=
  0xDC00 ≤ c && c ≤ 0xDFFF

/-- JavaScript `input.codePointAt(0)`: `none` on the empty string; a high
surrogate followed by a low surrogate combines into one code point; any
other leading unit (including a lone surrogate) is returned as-is. -/
def codePointAt0 : JSString → Option Nat
  | [] => none
  | c :: rest =>
    if isHighSurrogate c then
      match rest with
      | c2 :: _ =>
        if isLowSurrogate c2 then
          some (0x10000 + (c - 0xD800) * 0x400 + (c2 - 0xDC00))
        else some c
      | [] => some c
    else some c

/-- JavaScript `String.fromCodePoint` on a single code point. -/
def fromCodePoint (cp : Nat) : JSString :=
  if cp < 0x10000 then [cp]
  else [0xD800 + (cp - 0x10000) / 0x400, 0xDC00 + (cp - 0x10000) % 0x400]

/-- Constructor `anySingleCharacter` of constructors.ts. -/
def anySingleCharacter : Parser := fun input =>
  match codePointAt0 input with
  | none => .error ⟨input, jsOfString "input was empty"⟩
  | some firstCodePoint =>
    let firstCharacter := fromCodePoint firstCodePoint
    .ok ⟨input.drop firstCharacter.length, .str firstCharacter⟩

/-- Constructor `literal text` of constructors.ts: JavaScript
`input.startsWith(text)` is prefix test on code units, and
`input.slice(text.length)` drops that many units. -/
def literal (text : JSString) : Parser := fun input =>
  if text.isPrefixOf input then
    .ok ⟨input.drop text.length, .str text⟩
  else
    .error ⟨input, jsOfString "input did not begin with \"" ++ text ++ jsOfString "\""⟩

/-- Constructor `nothing` of constructors.ts: always succeeds, consumes no
input, outputs `undefined`. -/
def nothing : Parser := fun input =>
  .ok ⟨input, .undef⟩

/-- Combinator `as` of combinators.ts. -/
def as (parser : Parser) (newOutput : JSValue) : Parser := fun input =>
  (parser input).map fun success => ⟨success.remainingInput, newOutput⟩

/-- Combinator `butNot` of combinators.ts: on success of `parser`, the same
original input must not parse with `not`. -/
def butNot (parser : Parser) (not : Parser) (notName : JSString) : Parser := fun input =>
  (parser input).bind fun success =>
    match not input with
    | .ok _ => .error ⟨input, jsOfString "input was unexpectedly " ++ notName⟩
    | .error _ => .ok success

/-- Combinator `flatMap` of combinators.ts: monadic bind, the new parser is
applied to the remaining input. -/
def flatMap (parser : Parser) (f : JSValue → Parser) : Parser := fun input =>
  (parser input).bind fun success =>
    f success.output success.remainingInput

/-- Combinator `lazy` of combinators.ts. -/
def lazy (parser : Unit → Parser) : Parser := fun input =>
  parser () input

/-- Combinator `lookaheadNot` of combinators.ts: on success of `parser`,
the remaining input must not parse with `notFollowedBy`. -/
def lookaheadNot (parser : Parser) (notFollowedBy : Parser)
    (followedByName : JSString) : Parser := fun input =>
  (parser input).bind fun success =>
    match notFollowedBy success.remainingInput with
    | .error _ => .ok success
    | .ok _ =>
      .error ⟨input, jsOfString "input was unexpectedly followed by " ++ followedByName⟩

/-- Combinator `map` of combinators.ts. -/
def map (parser : Parser) (f : JSValue → JSValue) : Parser := fun input =>
  (parser input).map fun success => ⟨success.remainingInput, f success.output⟩

/-- The reduction step of `oneOf` in combinators.ts: keep an earlier
success, otherwise discard the failure and try the next parser on the same
input. -/
def oneOfStep (input : JSString)
    (result : Except InvalidInputError (Success JSValue)) (parser : Parser) :
    Except InvalidInputError (Success JSValue) :=
  match result with
  | .ok s => .ok s
  | .error _ => parser input

/-- Combinator `oneOf` of combinators.ts: a `reduce` over the parser list
starting from a placeholder failure with empty message (never returned for
a non-empty list). -/
def oneOf (parsers : List Parser) : Parser := fun input =>
  parsers.foldl (oneOfStep input) (.error ⟨input, []⟩)

/-- The reduction step of `sequence` in combinators.ts: thread
`remainingInput` into the next parser and append its output. -/
def sequenceStep (results : Except InvalidInputError (Success (List JSValue)))
    (parser : Parser) : Except InvalidInputError (Success (List JSValue)) :=
  match results with
  | .ok successes =>
    match parser successes.remainingInput with
    | .ok newSuccess =>
      .ok ⟨newSuccess.remainingInput, successes.output ++ [newSuccess.output]⟩
    | .error e => .error e
  | .error e => .error e

/-- Combinator `sequence` of combinators.ts: a `reduce` threading remaining
input, starting from a success with empty output list; the final `map`
re-wraps the accumulated array as the output value. -/
def sequence (parsers : List Parser) : Parser := fun input =>
  match parsers.foldl sequenceStep (.ok ⟨input, []⟩) with
  | .ok s => .ok ⟨s.remainingInput, .arr s.output⟩
  | .error e => .error e

/-- Combinator `transformOutput` of combinators.ts. -/
def transformOutput (parser : Parser)
    (f : JSValue → Except InvalidInputError JSValue) : Parser := fun input =>
  (parser input).bind fun success =>
    (f success.output).map fun output => ⟨success.remainingInput, output⟩

/-- The recursion of `zeroOrMore` in combinators.ts, with the accumulated
outputs kept as a list (the TypeScript value is the success record whose
output is the collected array).  The body is a literal transcription: run
`oneOf [parser, nothing]`; an (unreachable) failure yields `[]` with the
original input; a success with `undefined` output ends the repetition
keeping that success's remaining input; otherwise recurse on the remaining
input and cons the output.  The source recurses without any bound, so a
call need not terminate (e.g. when `parser` succeeds without consuming);
`fuel` makes the recursion well-founded and `none` models a run that
exceeds it (in JavaScript: a computation that never returns, or dies on
stack exhaustion). -/
def zeroOrMoreRun (parser : Parser) : Nat → JSString → Option (Success (List JSValue))
  | 0, _ => none
  | fuel + 1, input =>
    match oneOf [parser, nothing] input with
    | .error _ => some ⟨input, []⟩
    | .ok lastSuccess =>
      if isUndef lastSuccess.output then
        some ⟨lastSuccess.remainingInput, []⟩
      else
        match zeroOrMoreRun parser fuel lastSuccess.remainingInput with
        | none => none
        | some nextValue =>
          some ⟨nextValue.remainingInput, lastSuccess.output :: nextValue.output⟩

/-- Combinator `zeroOrMore` of combinators.ts: the final
`either.makeRight(success)` wrapping of `zeroOrMoreRun`, with the output
list embedded as a dynamic array value. -/
def zeroOrMore (parser : Parser) (fuel : Nat) (input : JSString) :
    Option (Except InvalidInputError (Success JSValue)) :=
  (zeroOrMoreRun parser fuel input).map fun success =>
    .ok ⟨success.remainingInput, .arr success.output⟩

/-- Combinator `oneOrMore` of combinators.ts, which is
`map(sequence([parser, zeroOrMore(parser)]), ([head, tail]) => [head, ...tail])`:
`sequence` runs `parser` on the input (propagating its failure unchanged),
then `zeroOrMore(parser)` on the remaining input, and the `map` conses the
head output onto the collected tail outputs.  The composition is inlined
here because `zeroOrMore` carries the explicit fuel. -/
def oneOrMore (parser : Parser) (fuel : Nat) (input : JSString) :
    Option (Except InvalidInputError (Success JSValue)) :=
  match parser input with
  | .error e => some (.error e)
  | .ok head =>
    (zeroOrMoreRun parser fuel head.remainingInput).map fun tail =>
      .ok ⟨tail.remainingInput, .arr (head.output :: tail.output)⟩

/-!
Model of the JavaScript regular-expression machinery used by the
`regularExpression` constructor.  Patterns are taken as their source
character sequence; the modelled subset covers literal characters, the
dot, alternation, the greedy quantifiers `?` and `*`, and the `^`
start-of-input assertion (flags other than `g` are not modelled; the
global flag's `lastIndex` statefulness is modelled separately below).
`RegExp.prototype.exec` (ECMA-262 RegExpBuiltinExec) scans for the
leftmost position at which the pattern matches, with ordered alternation
and greedy backtracking deciding the match at that position.
-/

/-- Abstract syntax of the modelled regular-expression subset. -/
inductive Regex : Type where
  | caret : Regex
  | dot : Regex
  | chr : Nat → Regex
  | emptyR : Regex
  | seqR : Regex → Regex → Regex
  | alt : Regex → Regex → Regex
  | opt : Regex → Regex
  | star : Regex → Regex

/-- Parse one atom of a pattern source: the `^` assertion, the dot, or a
literal character (unsupported metacharacters are rejected). -/
def parseAtomR : List Char → Option (Regex × List Char)
  | [] => none
  | c :: rest =>
    if c = '^' then some (.caret, rest)
    else if c = '.' then some (.dot, rest)
    else if c = '|' ∨ c = '?' ∨ c = '*' ∨ c = '+' ∨ c = '(' ∨ c = ')' ∨
        c = '[' ∨ c = ']' ∨ c = '\\' ∨ c = '$' ∨ c = '{' ∨ c = '}' then none
    else some (.chr c.toNat, rest)

/-- Parse one term: an atom followed by an optional greedy quantifier. -/
def parseTermR (src : List Char) : Option (Regex × List Char) :=
  match parseAtomR src with
  | none => none
  | some (a, rest) =>
    match rest with
    | '?' :: rest2 => some (.opt a, rest2)
    | '*' :: rest2 => some (.star a, rest2)
    | _ => some (a, rest)

/-- Parse a concatenation of terms, stopping at the end of the source or at
an alternation bar (fuel-indexed; each term consumes at least one source
character, so source length plus one is always enough fuel). -/
def parseSeqR : Nat → List Char → Option (Regex × List Char)
  | 0, _ => none
  | fuel + 1, src =>
    match src with
    | [] => some (.emptyR, [])
    | c :: _ =>
      if c = '|' then some (.emptyR, src)
      else
        match parseTermR src with
        | none => none
        | some (t, rest) =>
          match parseSeqR fuel rest with
          | none => none
          | some (s, rest2) => some (.seqR t s, rest2)

/-- Parse an alternation of concatenations (fuel-indexed). -/
def parseAltR : Nat → List Char → Option (Regex × List Char)
  | 0, _ => none
  | fuel + 1, src =>
    match parseSeqR (src.length + 1) src with
    | none => none
    | some (s, rest) =>
      match rest with
      | '|' :: rest2 =>
        match parseAltR fuel rest2 with
        | none => none
        | some (a, rest3) => some (.alt s a, rest3)
      | _ => some (s, rest)

/-- Parse a whole pattern source into the modelled subset. -/
def parseRegexSrc (src : List Char) : Option Regex :=
  match parseAltR (src.length + 1) src with
  | none => none
  | some (r, rest) => if rest = [] then some r else none

/-- Backtracking matcher, continuation-passing, mirroring the ordered
(first-alternative, greedy) match semantics of JavaScript regexes on
code units: `regexMatch fuel r input pos k` tries to match `r` at
position `pos` of `input` and passes the end position of each candidate
match to `k` in backtracking order, returning the first success.  The `^`
assertion holds only at position zero (no multiline flag).  A `star`
iteration that consumes nothing ends the repetition, as in JavaScript. -/
def regexMatch : Nat → Regex → JSString → Nat → (Nat → Option Nat) → Option Nat
  | 0, _, _, _, _ => none
  | fuel + 1, r, input, pos, k =>
    match r with
    | .caret => if pos = 0 then k pos else none
    | .dot =>
      match input.get? pos with
      | some c =>
        if c = 10 ∨ c = 13 ∨ c = 0x2028 ∨ c = 0x2029 then none else k (pos + 1)
      | none => none
    | .chr c =>
      match input.get? pos with
      | some c2 => if c2 = c then k (pos + 1) else none
      | none => none
    | .emptyR => k pos
    | .seqR a b => regexMatch fuel a input pos (fun p => regexMatch fuel b input p k)
    | .alt a b =>
      (regexMatch fuel a input pos k).orElse fun _ => regexMatch fuel b input pos k
    | .opt a => (regexMatch fuel a input pos k).orElse fun _ => k pos
    | .star a =>
      (regexMatch fuel a input pos fun p =>
        if p = pos then none else regexMatch fuel (.star a) input p k).orElse
        fun _ => k pos

/-- Structural size of a regex, used to pick ample matcher fuel. -/
def regexSize : Regex → Nat
  | .caret => 1
  | .dot => 1
  | .chr _ => 1
  | .emptyR => 1
  | .seqR a b => regexSize a + regexSize b + 1
  | .alt a b => regexSize a + regexSize b + 1
  | .opt a => regexSize a + 1
  | .star a => regexSize a + 1

/-- Fuel that is ample for the matcher on the modelled subset. -/
def matchFuel (r : Regex) (input : JSString) : Nat :=
  (input.length + 2) * (regexSize r + 2) + 1

/-- Scan positions `pos, pos + 1, …` (up to and including the input length)
for the first one where the pattern matches, returning the start and end
positions of the match, as `exec` does. -/
def execSearchAux (r : Regex) (input : JSString) : Nat → Nat → Option (Nat × Nat)
  | 0, _ => none
  | fuel + 1, pos =>
    match regexMatch (matchFuel r input) r input pos some with
    | some e => some (pos, e)
    | none =>
      if pos < input.length then execSearchAux r input fuel (pos + 1) else none

/-- JavaScript `exec` search starting at position `start`. -/
def execSearch (r : Regex) (input : JSString) (start : Nat) : Option (Nat × Nat) :=
  execSearchAux r input (input.length + 1 - start) start

/-- Constructor `regularExpression` of constructors.ts (for a pattern
without flags): if the pattern source does not already start with `^`,
prepend `^` to the source and recompile; run `exec` on the input; on a
match, the output is `match[0]` (the units between the match's start and
end positions) and the remaining input drops `match[0].length` units from
the front of the input.  Returns `none` when the pattern source falls
outside the modelled subset (where JavaScript could still compile it). -/
def regularExpression? (src : List Char) : Option Parser :=
  let patternAnchoredToStartOfString :=
    if src.head? = some '^' then src else '^' :: src
  (parseRegexSrc patternAnchoredToStartOfString).map fun r => fun input =>
    match execSearch r input 0 with
    | none => .error ⟨input, jsOfString "input did not match regular expression"⟩
    | some (i, e) => .ok ⟨input.drop (e - i), .str ((input.take e).drop i)⟩

/-- Constructor `regularExpression` applied to a pattern whose flags
contain `g`: per ECMA-262 RegExpBuiltinExec, `exec` on a global regex
begins its search at the regular-expression object's `lastIndex` property
and mutates it — to the end position of the match on success and to `0`
on failure.  The anchored `RegExp` object is created once and captured by
the returned closure, so `lastIndex` persists between invocations of the
parser; the embedding threads it explicitly as the `Nat` state. -/
def regularExpressionGlobal? (src : List Char) :
    Option (Nat → JSString → Except InvalidInputError (Success JSValue) × Nat) :=
  let patternAnchoredToStartOfString :=
    if src.head? = some '^' then src else '^' :: src
  (parseRegexSrc patternAnchoredToStartOfString).map fun r =>
    fun lastIndex input =>
      match execSearch r input lastIndex with
      | none => (.error ⟨input, jsOfString "input did not match regular expression"⟩, 0)
      | some (i, e) => (.ok ⟨input.drop (e - i), .str ((input.take e).drop i)⟩, e)

/-- The threading behaviour that `sequence` is specified to have: each
parser's success feeds its remaining input to the next parser, and the
outputs are collected in order. -/
inductive SeqRun : List Parser → JSString → List JSValue → JSString → Prop where
  | nil (input : JSString) : SeqRun [] input [] input
  | cons {p : Parser} {ps : List Parser} {input rem1 rem : JSString}
      {out : JSValue} {outs : List JSValue} :
      p input = .ok ⟨rem1, out⟩ → SeqRun ps rem1 outs rem →
      SeqRun (p :: ps) input (out :: outs) rem

/-- A parser whose successes only ever leave a suffix of their input as
the remaining input. -/
def Suffixal (p : Parser) : Prop :=
  ∀ input s, p input = .ok s → s.remainingInput <:+ input

/-- One unfolding step of the `zeroOrMore` recursion (definitional). -/
theorem zeroOrMoreRun_succ (parser : Parser) (fuel : Nat) (input : JSString) :
    zeroOrMoreRun parser (fuel + 1) input =
      match oneOf [parser, nothing] input with
      | .error _ => some ⟨input, []⟩
      | .ok lastSuccess =>
        if isUndef lastSuccess.output then
          some ⟨lastSuccess.remainingInput, []⟩
        else
          match zeroOrMoreRun parser fuel lastSuccess.remainingInput with
          | none => none
          | some nextValue =>
            some ⟨nextValue.remainingInput, lastSuccess.output :: nextValue.output⟩ := rfl

/-- How `oneOf [p, nothing]` (the body of `zeroOrMore`) behaves: `p`'s
success is kept, and a failure of `p` falls through to `nothing`. -/
theorem oneOf_pair_nothing (p : Parser) (input : JSString) :
    oneOf [p, nothing] input =
      match p input with
      | .ok s => .ok s
      | .error _ => .ok ⟨input, .undef⟩ := by
  cases h : p input <;> simp [oneOf, oneOfStep, List.foldl, h, nothing]

/-- Folding the `oneOf` step over any parsers from an established success
keeps that success. -/
theorem oneOf_foldl_ok (input : JSString) (s : Success JSValue) :
    ∀ ps : List Parser, ps.foldl (oneOfStep input) (.ok s) = .ok s := by
  intro ps
  induction ps with
  | nil => rfl
  | cons p ps ih => simpa [List.foldl_cons, oneOfStep] using ih

/-- If the parsers before `p` all fail and `p` succeeds, the `oneOf` fold
returns `p`'s success, whatever failure it starts from. -/
theorem oneOf_foldl_first (input : JSString) (s : Success JSValue) :
    ∀ (ps1 : List Parser) (p : Parser) (ps2 : List Parser) (e : InvalidInputError),
      (∀ q ∈ ps1, ∃ e2, q input = .error e2) → p input = .ok s →
      (ps1 ++ p :: ps2).foldl (oneOfStep input) (.error e) = .ok s := by
  intro ps1
  induction ps1 with
  | nil =>
    intro p ps2 e _ hp
    simp only [List.nil_append, List.foldl_cons, oneOfStep, hp]
    exact oneOf_foldl_ok input s ps2
  | cons q ps1 ih =>
    intro p ps2 e hfail hp
    obtain ⟨e2, hq⟩ := hfail q (List.mem_cons_self q ps1)
    simp only [List.cons_append, List.foldl_cons, oneOfStep, hq]
    exact ih p ps2 e2 (fun q2 hq2 => hfail q2 (List.mem_cons_of_mem q hq2)) hp

/-- If every parser fails on the input, the `oneOf` fold returns the last
parser's result, whatever failure it starts from. -/
theorem oneOf_foldl_all_fail (input : JSString) :
    ∀ (ps : List Parser) (hne : ps ≠ []) (e : InvalidInputError),
      (∀ q ∈ ps, ∃ e2, q input = .error e2) →
      ps.foldl (oneOfStep input) (.error e) = ps.getLast hne input := by
  intro ps
  induction ps with
  | nil => intro hne; exact absurd rfl hne
  | cons p ps ih =>
    intro hne e hfail
    cases ps with
    | nil => simp [List.foldl_cons, oneOfStep, List.getLast]
    | cons q qs =>
      obtain ⟨e2, hp⟩ := hfail p (List.mem_cons_self p _)
      have hlast : (p :: q :: qs).getLast hne = (q :: qs).getLast (List.cons_ne_nil q qs) :=
        List.getLast_cons (List.cons_ne_nil q qs)
      rw [List.foldl_cons, show oneOfStep input (.error e) p = p input from rfl, hp,
        ih (List.cons_ne_nil q qs) e2 (fun r hr => hfail r (List.mem_cons_of_mem p hr)),
        hlast]

/-- The `oneOf` fold either keeps its initial value or returns some member
parser's result on the input. -/
theorem oneOf_foldl_mem (input : JSString) :
    ∀ (ps : List Parser) (init : Except InvalidInputError (Success JSValue)),
      ps.foldl (oneOfStep input) init = init ∨
        ∃ p ∈ ps, ps.foldl (oneOfStep input) init = p input := by
  intro ps
  induction ps with
  | nil => intro init; exact Or.inl rfl
  | cons p ps ih =>
    intro init
    rw [List.foldl_cons]
    cases init with
    | ok s =>
      rw [show oneOfStep input (.ok s) p = .ok s from rfl]
      rcases ih (.ok s) with h | ⟨q, hq, h⟩
      · exact Or.inl h
      · exact Or.inr ⟨q, List.mem_cons_of_mem p hq, h⟩
    | error e =>
      rw [show oneOfStep input (.error e) p = p input from rfl]
      rcases ih (p input) with h | ⟨q, hq, h⟩
      · exact Or.inr ⟨p, List.mem_cons_self p ps, h⟩
      · exact Or.inr ⟨q, List.mem_cons_of_mem p hq, h⟩

/-- The `sequence` fold absorbs failures. -/
theorem sequence_foldl_error (e : InvalidInputError) :
    ∀ ps : List Parser, ps.foldl sequenceStep (.error e) = .error e := by
  intro ps
  induction ps with
  | nil => rfl
  | cons p ps ih => simpa [List.foldl_cons, sequenceStep] using ih

/-- One step of the `sequence` fold from a success (definitional). -/
theorem sequenceStep_ok (rem0 : JSString) (acc : List JSValue) (p : Parser) :
    sequenceStep (.ok ⟨rem0, acc⟩) p =
      match p rem0 with
      | .ok newSuccess => .ok ⟨newSuccess.remainingInput, acc ++ [newSuccess.output]⟩
      | .error e => .error e := rfl

/-- A threading run determines the `sequence` fold from any accumulator. -/
theorem sequence_foldl_of_run {ps : List Parser} {input : JSString}
    {outs : List JSValue} {rem : JSString} (h : SeqRun ps input outs rem) :
    ∀ acc : List JSValue,
      ps.foldl sequenceStep (.ok ⟨input, acc⟩) = .ok ⟨rem, acc ++ outs⟩ := by
  induction h with
  | nil input => intro acc; simp
  | @cons p ps input rem1 rem out outs hp hrun ih =>
    intro acc
    rw [List.foldl_cons, sequenceStep_ok, hp]
    simpa using ih (acc ++ [out])

/-- A successful `sequence` fold comes from a threading run. -/
theorem sequence_foldl_to_run :
    ∀ (ps : List Parser) (input : JSString) (acc out : List JSValue) (rem : JSString),
      ps.foldl sequenceStep (.ok ⟨input, acc⟩) = .ok ⟨rem, out⟩ →
      ∃ outs, out = acc ++ outs ∧ SeqRun ps input outs rem := by
  intro ps
  induction ps with
  | nil =>
    intro input acc out rem h
    simp only [List.foldl_nil, Except.ok.injEq, Success.mk.injEq] at h
    exact ⟨[], by simp [h.2.symm], h.1 ▸ SeqRun.nil input⟩
  | cons p ps ih =>
    intro input acc out rem h
    rw [List.foldl_cons, sequenceStep_ok] at h
    cases hp : p input with
    | error e =>
      rw [hp, sequence_foldl_error] at h
      exact absurd h (by simp)
    | ok ns =>
      rw [hp] at h
      simp only [] at h
      obtain ⟨outs, hout, hrun⟩ := ih ns.remainingInput (acc ++ [ns.output]) out rem h
      exact ⟨ns.output :: outs, by simp [hout],
        SeqRun.cons (by rw [hp]) hrun⟩

/-- A threading run determines the result of `sequence` itself. -/
theorem sequence_of_run {ps : List Parser} {input : JSString}
    {outs : List JSValue} {rem : JSString} (h : SeqRun ps input outs rem) :
    sequence ps input = .ok ⟨rem, .arr outs⟩ := by
  unfold sequence
  rw [sequence_foldl_of_run h []]
  simp

/-- C4: `parse(P, I)` returns the unwrapped output exactly when `P(I)`
succeeds with empty remaining input; a success with non-empty remaining
input becomes a failure with message "excess content followed valid
input"; a failure of `P` is returned as `parse`'s failure.  Full
consumption is enforced only here — a bare parser may succeed while
consuming the input only partially (the witness shows `literal 'a'` on
"ab"). -/
theorem parse_enforces_full_consumption (p : Parser) (input : JSString) :
    (∀ out, p input = .ok ⟨[], out⟩ → parse p input = .ok out)
  ∧ (∀ rem out, p input = .ok ⟨rem, out⟩ → rem ≠ [] →
      parse p input = .error (.excess input out rem
        (jsOfString "excess content followed valid input")))
  ∧ (∀ e, p input = .error e → parse p input = .error (.fromParser e)) := by
  refine ⟨fun out h => ?_, fun rem out h hrem => ?_, fun e h => ?_⟩
  · unfold parse
    rw [h]
    simp
  · unfold parse
    rw [h]
    simp [List.length_eq_zero, hrem]
  · unfold parse
    rw [h]

theorem parse_enforces_full_consumption_witness :
    literal (jsOfString "a") (jsOfString "ab")
      = .ok ⟨jsOfString "b", .str (jsOfString "a")⟩
  ∧ parse (literal (jsOfString "a")) (jsOfString "ab")
      = .error (.excess (jsOfString "ab") (.str (jsOfString "a")) (jsOfString "b")
          (jsOfString "excess content followed valid input")) :=
  ⟨rfl, (parse_enforces_full_consumption (literal (jsOfString "a"))
    (jsOfString "ab")).2.1 (jsOfString "b") (.str (jsOfString "a")) rfl (by decide)⟩

/-- C6: `oneOf(parsers)` applies the parsers in order to the same input:
it returns the success of the first parser that succeeds (all earlier ones
having failed), and when every parser fails it returns the failure
produced by the last parser in the list, earlier failures being
discarded. -/
theorem oneOf_returns_first_success_or_last_failure
    (ps : List Parser) (input : JSString) (hne : ps ≠ []) :
    (∀ (ps1 ps2 : List Parser) (p : Parser) (s : Success JSValue),
        ps = ps1 ++ p :: ps2 → (∀ q ∈ ps1, ∃ e, q input = .error e) →
        p input = .ok s → oneOf ps input = .ok s)
  ∧ ((∀ q ∈ ps, ∃ e, q input = .error e) →
      oneOf ps input = ps.getLast hne input) := by
  constructor
  · intro ps1 ps2 p s hsplit hfail hp
    unfold oneOf
    rw [hsplit]
    exact oneOf_foldl_first input s ps1 p ps2 ⟨input, []⟩ hfail hp
  · intro hfail
    unfold oneOf
    exact oneOf_foldl_all_fail input ps hne ⟨input, []⟩ hfail

theorem oneOf_returns_first_success_or_last_failure_witness :
    oneOf [literal (jsOfString "a"), literal (jsOfString "b")] (jsOfString "ba")
      = .ok ⟨jsOfString "a", .str (jsOfString "b")⟩ :=
  (oneOf_returns_first_success_or_last_failure
      [literal (jsOfString "a"), literal (jsOfString "b")] (jsOfString "ba")
      (by simp)).1
    [literal (jsOfString "a")] [] (literal (jsOfString "b"))
    ⟨jsOfString "a", .str (jsOfString "b")⟩ rfl
    (by
      intro q hq
      rw [List.mem_singleton] at hq
      subst hq
      exact ⟨_, rfl⟩)
    rfl

/-- C7: `sequence(parsers)` applies the parsers in order, threading each
success's remaining input into the next parser; it succeeds with the
ordered list of the step outputs and the last step's remaining input
exactly when such a threading run exists, and the first failing sub-parser
makes the whole sequence fail with that sub-parser's failure unchanged (no
partial output is retained). -/
theorem sequence_threads_and_fails_fast (ps : List Parser) (input : JSString)
    (outs : List JSValue) (rem : JSString) :
    (SeqRun ps input outs rem ↔ sequence ps input = .ok ⟨rem, .arr outs⟩)
  ∧ (∀ (ps2 : List Parser) (p : Parser) (e : InvalidInputError),
      SeqRun ps input outs rem → p rem = .error e →
      sequence (ps ++ p :: ps2) input = .error e) := by
  constructor
  · constructor
    · exact sequence_of_run
    · intro h
      unfold sequence at h
      cases hfold : ps.foldl sequenceStep (.ok ⟨input, []⟩) with
      | error e => rw [hfold] at h; exact absurd h (by simp)
      | ok s =>
        obtain ⟨srem, sout⟩ := s
        rw [hfold] at h
        simp only [Except.ok.injEq, Success.mk.injEq] at h
        obtain ⟨outs2, hout, hrun⟩ :=
          sequence_foldl_to_run ps input [] sout rem (by
            rw [hfold, h.1])
        have : outs2 = outs := by
          have harr := h.2
          rw [hout] at harr
          simpa using harr
        exact this ▸ hrun
  · intro ps2 p e hrun hp
    unfold sequence
    rw [List.foldl_append, sequence_foldl_of_run hrun [], List.foldl_cons,
      sequenceStep_ok, hp, sequence_foldl_error]

theorem sequence_threads_and_fails_fast_witness :
    sequence [literal (jsOfString "a"), literal (jsOfString "b")] (jsOfString "abc")
      = .ok ⟨jsOfString "c", .arr [.str (jsOfString "a"), .str (jsOfString "b")]⟩ :=
  ((sequence_threads_and_fails_fast
      [literal (jsOfString "a"), literal (jsOfString "b")] (jsOfString "abc")
      [.str (jsOfString "a"), .str (jsOfString "b")] (jsOfString "c")).1).mp
    (SeqRun.cons rfl (SeqRun.cons rfl (SeqRun.nil (jsOfString "c"))))

/-- C5: every run of `zeroOrMore p` that returns at all returns a success
(the source ends in `either.makeRight(success)`; the type-level
always-succeeds claim is this structural fact), and in particular when `p`
fails immediately the parser succeeds with output `[]` and the original
input as the remaining input — the failed attempt consumes nothing,
because the failure falls through to `nothing`, whose success keeps the
whole input. -/
theorem zeroOrMore_never_fails (p : Parser) (fuel : Nat) (input : JSString) :
    (∀ r, zeroOrMore p fuel input = some r → ∃ s, r = .ok s)
  ∧ (∀ e, p input = .error e → 0 < fuel →
      zeroOrMore p fuel input = some (.ok ⟨input, .arr []⟩)) := by
  constructor
  · intro r h
    unfold zeroOrMore at h
    cases hrun : zeroOrMoreRun p fuel input with
    | none => rw [hrun] at h; exact absurd h (by simp)
    | some v =>
      rw [hrun] at h
      simp only [Option.map_some', Option.some.injEq] at h
      exact ⟨_, h.symm⟩
  · intro e he hfuel
    cases fuel with
    | zero => exact absurd hfuel (by simp)
    | succ n =>
      unfold zeroOrMore
      rw [zeroOrMoreRun_succ, oneOf_pair_nothing, he]
      rfl

theorem zeroOrMore_never_fails_witness :
    literal (jsOfString "a") (jsOfString "b")
      = .error ⟨jsOfString "b",
          jsOfString "input did not begin with \"" ++ jsOfString "a" ++ jsOfString "\""⟩
  ∧ 0 < 1
  ∧ zeroOrMore (literal (jsOfString "a")) 1 (jsOfString "b")
      = some (.ok ⟨jsOfString "b", .arr []⟩) :=
  ⟨rfl, by decide,
    (zeroOrMore_never_fails (literal (jsOfString "a")) 1 (jsOfString "b")).2
      ⟨jsOfString "b",
        jsOfString "input did not begin with \"" ++ jsOfString "a" ++ jsOfString "\""⟩
      rfl (by decide)⟩

/-- C10: when `p` succeeds with output `undefined` (the value the
`nothing` parser outputs), `zeroOrMore p` treats that success as the end
marker of the repetition: it succeeds with output `[]` and with the
remaining input of that success, so the input consumed by the
undefined-output match is consumed, but the occurrence is not collected
in the output list. -/
theorem zeroOrMore_undefined_output_ends_repetition (p : Parser)
    (input rem : JSString) (fuel : Nat) :
    p input = .ok ⟨rem, .undef⟩ →
    zeroOrMore p (fuel + 1) input = some (.ok ⟨rem, .arr []⟩) := by
  intro h
  unfold zeroOrMore
  rw [zeroOrMoreRun_succ, oneOf_pair_nothing, h]
  rfl

theorem zeroOrMore_undefined_output_ends_repetition_witness :
    as (literal (jsOfString "a")) .undef (jsOfString "ab")
      = .ok ⟨jsOfString "b", .undef⟩
  ∧ zeroOrMore (as (literal (jsOfString "a")) .undef) 1 (jsOfString "ab")
      = some (.ok ⟨jsOfString "b", .arr []⟩) :=
  ⟨rfl, zeroOrMore_undefined_output_ends_repetition
    (as (literal (jsOfString "a")) .undef) (jsOfString "ab") (jsOfString "b") 0 rfl⟩

/-- The parser `literal (jsOfString "a")` consumes a leading unit 97. -/
theorem literal_a_cons (l : JSString) :
    literal (jsOfString "a") (97 :: l) = .ok ⟨l, .str (jsOfString "a")⟩ := by
  show literal [97] (97 :: l) = .ok ⟨l, .str [97]⟩
  simp [literal, List.isPrefixOf]

/-- Running the `zeroOrMore` recursion of `literal 'a'` over n copies of
'a' consumes them all and collects n outputs, with fuel n + 1. -/
theorem zeroOrMoreRun_literal_a :
    ∀ n : Nat, zeroOrMoreRun (literal (jsOfString "a")) (n + 1) (List.replicate n 97)
      = some ⟨[], List.replicate n (.str (jsOfString "a"))⟩ := by
  intro n
  induction n with
  | zero => rfl
  | succ n ih =>
    rw [List.replicate_succ, List.replicate_succ, zeroOrMoreRun_succ,
      oneOf_pair_nothing, literal_a_cons]
    simp only [isUndef, Bool.false_eq_true, if_false, ih]

/-- The threading run of n copies of `literal 'a'` over n copies of 'a'. -/
theorem seqRun_literal_a :
    ∀ n : Nat, SeqRun (List.replicate n (literal (jsOfString "a")))
      (List.replicate n 97) (List.replicate n (.str (jsOfString "a"))) [] := by
  intro n
  induction n with
  | zero => exact SeqRun.nil []
  | succ n ih =>
    rw [List.replicate_succ, List.replicate_succ, List.replicate_succ]
    exact SeqRun.cons (literal_a_cons (List.replicate n 97)) ih

/-- C2: the extensional behaviour of the large-repetition scenario — for
every n (including the spec's 10000), `zeroOrMore`, `oneOrMore` and
`sequence` built from `literal 'a'` parsers applied to n copies of 'a'
produce the full n-element output list with nothing left over (97 is the
code unit of 'a').  With fuel n + 1 the `zeroOrMore` recursion never runs
out, i.e. the recursion depth the source consumes is linear in n; the
shallow embedding has no call stack, so the stack-overflow aspect of the
claim lives in the `fuel` accounting, not in a provable proposition. -/
theorem repetition_produces_full_output (n : Nat) :
    zeroOrMore (literal (jsOfString "a")) (n + 1) (List.replicate n 97)
      = some (.ok ⟨[], .arr (List.replicate n (.str (jsOfString "a")))⟩)
  ∧ (1 ≤ n → oneOrMore (literal (jsOfString "a")) n (List.replicate n 97)
      = some (.ok ⟨[], .arr (List.replicate n (.str (jsOfString "a")))⟩))
  ∧ sequence (List.replicate n (literal (jsOfString "a"))) (List.replicate n 97)
      = .ok ⟨[], .arr (List.replicate n (.str (jsOfString "a")))⟩ := by
  refine ⟨?_, ?_, ?_⟩
  · unfold zeroOrMore
    rw [zeroOrMoreRun_literal_a n]
    rfl
  · intro hn
    cases n with
    | zero => exact absurd hn (by simp)
    | succ m =>
      unfold oneOrMore
      rw [List.replicate_succ, literal_a_cons]
      show Option.map (fun tail =>
          Except.ok (Success.mk tail.remainingInput
            (JSValue.arr (JSValue.str (jsOfString "a") :: tail.output))))
        (zeroOrMoreRun (literal (jsOfString "a")) (m + 1) (List.replicate m 97)) = _
      rw [zeroOrMoreRun_literal_a m]
      simp [List.replicate_succ]
  · exact sequence_of_run (seqRun_literal_a n)

theorem repetition_produces_full_output_witness :
    1 ≤ 3
  ∧ zeroOrMore (literal (jsOfString "a")) 4 (List.replicate 3 97)
      = some (.ok ⟨[], .arr (List.replicate 3 (.str (jsOfString "a")))⟩)
  ∧ oneOrMore (literal (jsOfString "a")) 3 (List.replicate 3 97)
      = some (.ok ⟨[], .arr (List.replicate 3 (.str (jsOfString "a")))⟩)
  ∧ sequence (List.replicate 3 (literal (jsOfString "a"))) (List.replicate 3 97)
      = .ok ⟨[], .arr (List.replicate 3 (.str (jsOfString "a")))⟩ :=
  ⟨by decide, (repetition_produces_full_output 3).1,
    (repetition_produces_full_output 3).2.1 (by decide),
    (repetition_produces_full_output 3).2.2⟩

/-- Unfolding of the surrogate-range test. -/
theorem isHighSurrogate_iff (c : Nat) :
    isHighSurrogate c = true ↔ 0xD800 ≤ c ∧ c ≤ 0xDBFF := by
  simp [isHighSurrogate]

/-- Unfolding of the surrogate-range test. -/
theorem isLowSurrogate_iff (c : Nat) :
    isLowSurrogate c = true ↔ 0xDC00 ≤ c ∧ c ≤ 0xDFFF := by
  simp [isLowSurrogate]

/-- A leading surrogate pair combines into one code point. -/
theorem codePointAt0_pair {hi lo : Nat} (rest : JSString)
    (hhi : isHighSurrogate hi = true) (hlo : isLowSurrogate lo = true) :
    codePointAt0 (hi :: lo :: rest)
      = some (0x10000 + (hi - 0xD800) * 0x400 + (lo - 0xDC00)) := by
  simp [codePointAt0, hhi, hlo]

/-- A leading unit that does not begin a surrogate pair is the code point. -/
theorem codePointAt0_single {c : Nat} {rest : JSString}
    (h : ¬(isHighSurrogate c = true ∧
      ∃ c2 r2, rest = c2 :: r2 ∧ isLowSurrogate c2 = true)) :
    codePointAt0 (c :: rest) = some c := by
  unfold codePointAt0
  by_cases hhi : isHighSurrogate c = true
  · cases rest with
    | nil => simp [hhi]
    | cons c2 r2 =>
      by_cases hlo : isLowSurrogate c2 = true
      · exact absurd ⟨hhi, c2, r2, rfl, hlo⟩ h
      · simp [hhi, hlo]
  · simp [hhi]

/-- Re-encoding the code point of a surrogate pair yields the same pair. -/
theorem fromCodePoint_pair {hi lo : Nat}
    (hhi : isHighSurrogate hi = true) (hlo : isLowSurrogate lo = true) :
    fromCodePoint (0x10000 + (hi - 0xD800) * 0x400 + (lo - 0xDC00)) = [hi, lo] := by
  rw [isHighSurrogate_iff] at hhi
  rw [isLowSurrogate_iff] at hlo
  unfold fromCodePoint
  rw [if_neg (by omega)]
  have h1 : 0xD800 + (0x10000 + (hi - 0xD800) * 0x400 + (lo - 0xDC00) - 0x10000) / 0x400 = hi := by
    omega
  have h2 : 0xDC00 + (0x10000 + (hi - 0xD800) * 0x400 + (lo - 0xDC00) - 0x10000) % 0x400 = lo := by
    omega
  rw [h1, h2]

/-- C8: `anySingleCharacter` fails with "input was empty" exactly on the
empty input, and otherwise consumes exactly one Unicode code point: a
leading surrogate pair is consumed as a single two-unit character (not
split into UTF-16 code units), and any other leading unit (below 2^16, as
all JavaScript string units are) is consumed as a one-unit character; the
output is that character and the rest of the input remains. -/
theorem anySingleCharacter_consumes_one_code_point (input : JSString) :
    (input = [] → anySingleCharacter input = .error ⟨[], jsOfString "input was empty"⟩)
  ∧ (∀ c rest, input = c :: rest → c < 0x10000 →
      ¬(isHighSurrogate c = true ∧
        ∃ c2 r2, rest = c2 :: r2 ∧ isLowSurrogate c2 = true) →
      anySingleCharacter input = .ok ⟨rest, .str [c]⟩)
  ∧ (∀ hi lo rest, input = hi :: lo :: rest → isHighSurrogate hi = true →
      isLowSurrogate lo = true →
      anySingleCharacter input = .ok ⟨rest, .str [hi, lo]⟩) := by
  refine ⟨fun h => by subst h; rfl, ?_, ?_⟩
  · intro c rest h hc hnp
    subst h
    have hfc : fromCodePoint c = [c] := by unfold fromCodePoint; rw [if_pos hc]
    unfold anySingleCharacter
    rw [codePointAt0_single hnp]
    simp [hfc]
  · intro hi lo rest h hhi hlo
    subst h
    unfold anySingleCharacter
    rw [codePointAt0_pair rest hhi hlo]
    simp [fromCodePoint_pair hhi hlo]

theorem anySingleCharacter_consumes_one_code_point_witness :
    anySingleCharacter (jsOfString "😀a") = .ok ⟨[97], .str [0xD83D, 0xDE00]⟩
  ∧ anySingleCharacter [] = .error ⟨[], jsOfString "input was empty"⟩ :=
  ⟨(anySingleCharacter_consumes_one_code_point (jsOfString "😀a")).2.2
      0xD83D 0xDE00 [97] rfl rfl rfl,
    (anySingleCharacter_consumes_one_code_point []).1 rfl⟩

/-- The `zeroOrMore` step when the parser fails: the failure falls through
to `nothing` and ends the repetition with the whole input remaining. -/
theorem zeroOrMoreRun_succ_err {p : Parser} {input : JSString}
    {e : InvalidInputError} (hpi : p input = .error e) (n : Nat) :
    zeroOrMoreRun p (n + 1) input = some ⟨input, []⟩ := by
  rw [zeroOrMoreRun_succ, oneOf_pair_nothing, hpi]
  rfl

/-- The `zeroOrMore` step when the parser succeeds: end the repetition on
an `undefined` output, otherwise recurse on the remaining input. -/
theorem zeroOrMoreRun_succ_ok {p : Parser} {input : JSString}
    {s : Success JSValue} (hpi : p input = .ok s) (n : Nat) :
    zeroOrMoreRun p (n + 1) input =
      if isUndef s.output = true then some ⟨s.remainingInput, []⟩
      else
        match zeroOrMoreRun p n s.remainingInput with
        | none => none
        | some nextValue =>
          some ⟨nextValue.remainingInput, s.output :: nextValue.output⟩ := by
  rw [zeroOrMoreRun_succ, oneOf_pair_nothing, hpi]

/-- Every terminating run of the `zeroOrMore` recursion of a suffix-
respecting parser leaves a suffix of its input. -/
theorem zeroOrMoreRun_suffix {p : Parser} (hp : Suffixal p) :
    ∀ (fuel : Nat) (input : JSString) (v : Success (List JSValue)),
      zeroOrMoreRun p fuel input = some v → v.remainingInput <:+ input := by
  intro fuel
  induction fuel with
  | zero => intro input v h; exact absurd h (by simp [zeroOrMoreRun])
  | succ n ih =>
    intro input v h
    cases hpi : p input with
    | error e =>
      rw [zeroOrMoreRun_succ_err hpi n] at h
      simp only [Option.some.injEq] at h
      subst h
      exact List.suffix_refl input
    | ok s =>
      rw [zeroOrMoreRun_succ_ok hpi n] at h
      by_cases hu : isUndef s.output = true
      · rw [if_pos hu] at h
        simp only [Option.some.injEq] at h
        subst h
        exact hp input s hpi
      · rw [if_neg hu] at h
        cases hrec : zeroOrMoreRun p n s.remainingInput with
        | none => rw [hrec] at h; exact absurd h (by simp)
        | some next =>
          rw [hrec] at h
          simp only [Option.some.injEq] at h
          subst h
          exact (ih s.remainingInput next hrec).trans (hp input s hpi)

/-- The final remaining input of a threading run of suffix-respecting
parsers is a suffix of the run's input. -/
theorem seqRun_suffix : ∀ {ps : List Parser} {input : JSString}
    {outs : List JSValue} {rem : JSString}, SeqRun ps input outs rem →
    (∀ p ∈ ps, Suffixal p) → rem <:+ input := by
  intro ps input outs rem h
  induction h with
  | nil _ => intro _; exact List.suffix_refl _
  | @cons p ps input rem1 rem out outs hp hrun ih =>
    intro hps
    exact (ih fun q hq => hps q (List.mem_cons_of_mem p hq)).trans
      (hps p (List.mem_cons_self p ps) input ⟨rem1, out⟩ hp)

/-- C9: for every parser built from the library's constructors and
combinators, a success's `remainingInput` is a suffix of the input that
parser was given: each constructor satisfies `Suffixal` and each
combinator preserves it (for `zeroOrMore` and `oneOrMore`, which carry
explicit fuel, the suffix property of every terminating run is stated
directly). -/
theorem remainingInput_is_suffix_of_input :
    Suffixal anySingleCharacter
  ∧ (∀ text, Suffixal (literal text))
  ∧ Suffixal nothing
  ∧ (∀ src p, regularExpression? src = some p → Suffixal p)
  ∧ (∀ p v, Suffixal p → Suffixal (as p v))
  ∧ (∀ p q nm, Suffixal p → Suffixal (butNot p q nm))
  ∧ (∀ p f, Suffixal p → (∀ v, Suffixal (f v)) → Suffixal (flatMap p f))
  ∧ (∀ t, Suffixal (t ()) → Suffixal (lazy t))
  ∧ (∀ p q nm, Suffixal p → Suffixal (lookaheadNot p q nm))
  ∧ (∀ p f, Suffixal p → Suffixal (map p f))
  ∧ (∀ ps, (∀ p ∈ ps, Suffixal p) → Suffixal (oneOf ps))
  ∧ (∀ ps, (∀ p ∈ ps, Suffixal p) → Suffixal (sequence ps))
  ∧ (∀ p f, Suffixal p → Suffixal (transformOutput p f))
  ∧ (∀ p fuel input r s, Suffixal p → zeroOrMore p fuel input = some r →
      r = .ok s → s.remainingInput <:+ input)
  ∧ (∀ p fuel input r s, Suffixal p → oneOrMore p fuel input = some r →
      r = .ok s → s.remainingInput <:+ input) := by
  refine ⟨?_, ?_, ?_, ?_, ?_, ?_, ?_, ?_, ?_, ?_, ?_, ?_, ?_, ?_, ?_⟩
  · intro input s h
    unfold anySingleCharacter at h
    cases hcp : codePointAt0 input with
    | none => rw [hcp] at h; exact absurd h (by simp)
    | some cp =>
      rw [hcp] at h
      simp only [Except.ok.injEq] at h
      rw [← h]
      exact List.drop_suffix _ _
  · intro text input s h
    unfold literal at h
    by_cases hpre : text.isPrefixOf input
    · rw [if_pos hpre] at h
      simp only [Except.ok.injEq] at h
      rw [← h]
      exact List.drop_suffix _ _
    · rw [if_neg hpre] at h
      exact absurd h (by simp)
  · intro input s h
    unfold nothing at h
    simp only [Except.ok.injEq] at h
    subst h
    exact List.suffix_refl input
  · intro src p hsome
    simp only [regularExpression?] at hsome
    rw [Option.map_eq_some'] at hsome
    obtain ⟨r, _, hparse⟩ := hsome
    intro input s h
    rw [← hparse] at h
    simp only [] at h
    cases hex : execSearch r input 0 with
    | none => rw [hex] at h; exact absurd h (by simp)
    | some ie =>
      rw [hex] at h
      obtain ⟨i, e⟩ := ie
      simp only [Except.ok.injEq] at h
      rw [← h]
      exact List.drop_suffix _ _
  · intro p v hp input s h
    unfold as at h
    cases hpi : p input with
    | error e => rw [hpi] at h; exact absurd h (by simp [Except.map])
    | ok s0 =>
      rw [hpi] at h
      simp only [Except.map, Except.ok.injEq] at h
      rw [← h]
      exact hp input s0 hpi
  · intro p q nm hp input s h
    unfold butNot at h
    cases hpi : p input with
    | error e => rw [hpi] at h; exact absurd h (by simp [Except.bind])
    | ok s0 =>
      rw [hpi] at h
      simp only [Except.bind] at h
      cases hq : q input with
      | ok s1 => rw [hq] at h; exact absurd h (by simp)
      | error e =>
        rw [hq] at h
        simp only [Except.ok.injEq] at h
        rw [← h]
        exact hp input s0 hpi
  · intro p f hp hf input s h
    unfold flatMap at h
    cases hpi : p input with
    | error e => rw [hpi] at h; exact absurd h (by simp [Except.bind])
    | ok s0 =>
      rw [hpi] at h
      simp only [Except.bind] at h
      exact (hf s0.output s0.remainingInput s h).trans (hp input s0 hpi)
  · intro t ht input s h
    exact ht input s h
  · intro p q nm hp input s h
    unfold lookaheadNot at h
    cases hpi : p input with
    | error e => rw [hpi] at h; exact absurd h (by simp [Except.bind])
    | ok s0 =>
      rw [hpi] at h
      simp only [Except.bind] at h
      cases hq : q s0.remainingInput with
      | ok s1 => rw [hq] at h; exact absurd h (by simp)
      | error e =>
        rw [hq] at h
        simp only [Except.ok.injEq] at h
        rw [← h]
        exact hp input s0 hpi
  · intro p f hp input s h
    unfold map at h
    cases hpi : p input with
    | error e => rw [hpi] at h; exact absurd h (by simp [Except.map])
    | ok s0 =>
      rw [hpi] at h
      simp only [Except.map, Except.ok.injEq] at h
      rw [← h]
      exact hp input s0 hpi
  · intro ps hps input s h
    unfold oneOf at h
    rcases oneOf_foldl_mem input ps (.error ⟨input, []⟩) with hm | ⟨q, hq, hm⟩
    · rw [hm] at h; exact absurd h (by simp)
    · rw [hm] at h
      exact hps q hq input s h
  · intro ps hps input s h
    unfold sequence at h
    cases hfold : ps.foldl sequenceStep (.ok ⟨input, []⟩) with
    | error e => rw [hfold] at h; exact absurd h (by simp)
    | ok v =>
      obtain ⟨vrem, vout⟩ := v
      rw [hfold] at h
      simp only [Except.ok.injEq] at h
      obtain ⟨outs, _, hrun⟩ := sequence_foldl_to_run ps input [] vout vrem hfold
      rw [← h]
      exact seqRun_suffix hrun hps
  · intro p f hp input s h
    unfold transformOutput at h
    cases hpi : p input with
    | error e => rw [hpi] at h; exact absurd h (by simp [Except.bind])
    | ok s0 =>
      rw [hpi] at h
      simp only [Except.bind] at h
      cases hf : f s0.output with
      | error e => rw [hf] at h; exact absurd h (by simp [Except.map])
      | ok out =>
        rw [hf] at h
        simp only [Except.map, Except.ok.injEq] at h
        rw [← h]
        exact hp input s0 hpi
  · intro p fuel input r s hp h hr
    subst hr
    unfold zeroOrMore at h
    cases hrun : zeroOrMoreRun p fuel input with
    | none => rw [hrun] at h; exact absurd h (by simp)
    | some v =>
      rw [hrun] at h
      simp only [Option.map_some', Option.some.injEq, Except.ok.injEq] at h
      rw [← h]
      exact zeroOrMoreRun_suffix hp fuel input v hrun
  · intro p fuel input r s hp h hr
    subst hr
    unfold oneOrMore at h
    cases hpi : p input with
    | error e => rw [hpi] at h; exact absurd h (by simp)
    | ok head =>
      rw [hpi] at h
      simp only [] at h
      cases hrun : zeroOrMoreRun p fuel head.remainingInput with
      | none => rw [hrun] at h; exact absurd h (by simp)
      | some tail =>
        rw [hrun] at h
        simp only [Option.map_some', Option.some.injEq, Except.ok.injEq] at h
        rw [← h]
        exact (zeroOrMoreRun_suffix hp fuel head.remainingInput tail hrun).trans
          (hp input head hpi)

theorem remainingInput_is_suffix_of_input_witness :
    literal (jsOfString "a") (jsOfString "ab")
      = .ok ⟨jsOfString "b", .str (jsOfString "a")⟩
  ∧ jsOfString "b" <:+ jsOfString "ab" :=
  ⟨rfl, remainingInput_is_suffix_of_input.2.1 (jsOfString "a") (jsOfString "ab")
    ⟨jsOfString "b", .str (jsOfString "a")⟩ rfl⟩

/-- C1: prepending `^` to the pattern source does not anchor a pattern
with a top-level alternation: for the pattern `a|b` the implementation
compiles `^a|b`, whose second alternative is unanchored, so on the input
"cb" the parser succeeds with output "b" (the code units are 97 'a',
98 'b', 99 'c') — a match found mid-string — and the remaining input is
computed by dropping `match[0].length` units from the front, leaving "b".
The output is not even a prefix of the input, refuting the claim that
the parser succeeds only on a matching prefix and otherwise fails. -/
theorem regularExpression_alternation_escapes_anchoring :
    (regularExpression? ("a|b").toList).map (fun p => p (jsOfString "cb"))
      = some (.ok ⟨jsOfString "b", .str (jsOfString "b")⟩)
  ∧ ¬ jsOfString "b" <+: jsOfString "cb" :=
  ⟨rfl, by decide⟩

/-- C3: a parser built by `regularExpression` from a pattern with the
global flag is not a pure function of its input: the `g`-flagged anchored
`RegExp` object is shared by all invocations of the returned closure and
`exec` starts at and mutates its `lastIndex` (ECMA-262 RegExpBuiltinExec),
so for the pattern `/a/g` the first invocation on "ab" succeeds with
output "a" and sets `lastIndex` to 1, while the second invocation on the
very same input fails (the anchored pattern cannot match at position 1)
and resets `lastIndex` to 0. -/
theorem regularExpression_global_flag_breaks_purity :
    (regularExpressionGlobal? ("a").toList).map (fun pg =>
        (pg 0 (jsOfString "ab"), pg (pg 0 (jsOfString "ab")).2 (jsOfString "ab")))
      = some ((.ok ⟨jsOfString "b", .str (jsOfString "a")⟩, 1),
          (.error ⟨jsOfString "ab",
            jsOfString "input did not match regular expression"⟩, 0))
  ∧ (Except.ok ⟨jsOfString "b", .str (jsOfString "a")⟩
      : Except InvalidInputError (Success JSValue))
      ≠ .error ⟨jsOfString "ab", jsOfString "input did not match regular expression"⟩ :=
  ⟨rfl, by simp⟩

end Parsing
